import Mathlib

/-!
Verification of the concurrency toolkit in src/my_threading.py (the file
src/threading_new.py is a near-identical copy of the same classes).

The Python classes are shallowly embedded as Lean definitions over explicit
state records.  Machine integers are modelled as Nat/Int (the target platform
uses arbitrary-precision ints), Python exceptions as explicit error outcomes,
and time as a Nat millisecond counter (utime.ticks_ms with linear, i.e.
non-wrapping, arithmetic; utime.ticks_diff(a, b) is a - b).

Threads: the toolkit is concurrent, but each claim below is about the
behaviour of one operation (or one single-threaded call sequence), so the
embedding gives each operation a sequential semantics in which no other
thread mutates the object during the call; where a claim is genuinely about
an interleaving (AsyncTask.cancel) a small explicit interleaving machine is
used.  Note: MicroPython (the source's target) does not implement name
mangling of double-underscore attributes, so for example
BoundedSemaphore.release really does read the value and condition stored by
Semaphore.__init__; the embedding reflects that.
-/

namespace VoiceAssistant

/-! ## _Result (the single-shot Future), my_threading.py lines 583-637

Fields: __rv (return value, initially None), __exc (exception, initially
None), __finished (an Event flag, initially unset).  Values and exceptions
are modelled as Nat tags; __rv of None is Option.none.  Python evaluates
an exception object as truthy, so the source guard "if self.__exc:" is
exactly "exc is not None" here. -/

structure ResultState where
  rv : Option Nat
  exc : Option Nat
  finished : Bool
deriving Repr, DecidableEq

/-- The state produced by _Result.__init__. -/
def initResult : ResultState := ⟨none, none, false⟩

/-- _Result.set(exc, rv) (lines 599-608): stores both arguments and sets the
finished Event. -/
def resultSet (_st : ResultState) (exc : Option Nat) (rv : Option Nat) : ResultState :=
  { rv := rv, exc := exc, finished := true }

/-- Possible outcomes of _Result.get. -/
inductive GetOutcome where
  | value (v : Option Nat)
  | raised (e : Nat)
  | notReady
  | timedOut
  | hang
deriving Repr, DecidableEq

/-- _Result.__get_value_or_raise_exc (lines 610-614): raise the stored
exception if one is present, otherwise return the stored value. -/
def getValueOrRaiseExc (st : ResultState) : GetOutcome :=
  match st.exc with
  | some e => .raised e
  | none => .value st.rv

/-- _Result.get(block, timeout) (lines 616-637).  In the sequential
semantics the finished flag cannot change during the call, so
self.__finished.wait(timeout) returns the current flag when a finite
timeout is given, and never returns if the flag is unset and no timeout
is given (outcome hang). -/
def resultGet (st : ResultState) (block : Bool) (timeout : Option Nat) : GetOutcome :=
  if !block then
    if st.finished then getValueOrRaiseExc st else .notReady
  else
    if st.finished then getValueOrRaiseExc st
    else
      match timeout with
      | some _ => .timedOut
      | none => .hang

/-! ## Semaphore / BoundedSemaphore, my_threading.py lines 346-406

Only the permit count and the bounded ceiling matter for the claims; the
Condition is used by the source purely for mutual exclusion and wakeups. -/

structure SemState where
  value : Int
  initialValue : Int
deriving Repr, DecidableEq

/-- The state produced by BoundedSemaphore(v) (value = v, ceiling = v). -/
def initBoundedSemaphore (v : Int) : SemState := ⟨v, v⟩

/-- Outcome of BoundedSemaphore.release. -/
inductive RelRes where
  | ok (st : SemState)
  | errBadN
  | errTooMany
deriving Repr, DecidableEq

/-- BoundedSemaphore.release(n) (lines 399-406): ValueError if n < 1;
ValueError "Semaphore released too many times" if the resulting count
would exceed the initial ceiling; otherwise adds n permits. -/
def boundedRelease (st : SemState) (n : Int) : RelRes :=
  if n < 1 then .errBadN
  else if st.initialValue < st.value + n then .errTooMany
  else .ok { st with value := st.value + n }

/-- Semaphore.acquire(block=False) (lines 365-371): take a permit when one
is available, else return False; the pair is (returned bool, new state). -/
def semAcquireNonBlocking (st : SemState) : Bool × SemState :=
  if 0 < st.value then (true, { st with value := st.value - 1 })
  else (false, st)

/-! ## Condition waiter queue, my_threading.py lines 196-272

A _Waiter is a single-use gate object; Condition.wait appends a fresh
waiter to self.__waiters and Condition.notify(n) releases the waiters in
the slice self.__waiters[:n], removing each from the list.  Waiters are
modelled by Nat identifiers (distinct objects get distinct ids; Python
list.remove removes the first occurrence equal to its argument, which is
List.erase). -/

/-- The queue effect of Condition.wait (line 219): self.__waiters.append(waiter). -/
def condWaitEnqueue (waiters : List Nat) (w : Nat) : List Nat := waiters ++ [w]

/-- Condition.notify(n) (lines 253-269): clamp negative n to 0, take the
slice waiters[:n] as the waiters to wake, release each and remove it from
the list.  Returns (woken waiters in wake order, remaining queue). -/
def condNotify (waiters : List Nat) (n : Int) : List Nat × List Nat :=
  let m : Int := if n < 0 then 0 else n
  let woken := waiters.take m.toNat
  (woken, woken.foldl (fun ws w => ws.erase w) waiters)

/-! ## Queue / LifoQueue / PriorityQueue, my_threading.py lines 409-524

A queue object is its backing list self.queue plus the capacity
self.__max_size.  Elements are Nat (the source is untyped; the claims use
small integers).  The subclasses override only _put/_get, which Queue.put
and Queue.get call through dynamic dispatch; the wrappers below therefore
take the _put/_get core as a parameter. -/

structure QueueState where
  queue : List Nat
  maxSize : Nat
deriving Repr, DecidableEq

/-- Queue._put (lines 424-425): self.queue.append(item).  (LifoQueue._put,
lines 475-476, is the identical override.) -/
def queuePutCore (q : List Nat) (item : Nat) : List Nat := q ++ [item]

/-- Queue._get (lines 443-444): self.queue.pop(0).  Popping an empty list
raises IndexError (none); Queue.get only calls it on a non-empty queue. -/
def queueGetCore : List Nat → Option (Nat × List Nat)
  | [] => none
  | x :: t => some (x, t)

/-- LifoQueue._get (lines 478-479): self.queue.pop(), i.e. remove and
return the last element. -/
def lifoGetCore (q : List Nat) : Option (Nat × List Nat) :=
  match q.getLast? with
  | none => none
  | some x => some (x, q.dropLast)

/-- The loop body of PriorityQueue.__siftdown (lines 484-495).  The source
loop mutates heap and pos; here the loop is a recursion whose fuel argument
is only a termination bound: the loop walks the ancestor chain of pos, so
pos itself is enough fuel (each step moves pos to (pos - 1) >> 1). -/
def siftdownLoop : Nat → List Nat → Nat → Nat → Nat → List Nat
  | 0, heap, _, pos, newitem => heap.set pos newitem
  | fuel + 1, heap, startpos, pos, newitem =>
    if startpos < pos then
      let parentpos := (pos - 1) / 2
      let parent := heap.getD parentpos 0
      if newitem < parent then
        siftdownLoop fuel (heap.set pos parent) startpos parentpos newitem
      else heap.set pos newitem
    else heap.set pos newitem

/-- PriorityQueue.__siftdown(heap, startpos, pos): newitem = heap[pos],
walk parents down while newitem is smaller, then place newitem. -/
def siftdown (heap : List Nat) (startpos pos : Nat) : List Nat :=
  siftdownLoop pos heap startpos pos (heap.getD pos 0)

/-- PriorityQueue._put (lines 497-499): append, then siftdown(queue, 0, len-1). -/
def prioPutCore (q : List Nat) (item : Nat) : List Nat :=
  siftdown (q ++ [item]) 0 q.length

/-- The loop body of PriorityQueue.__siftup (lines 501-514): repeatedly
move the smaller child up into pos until pos has no child.  Returns the
heap after the moves together with the final pos.  The fuel argument is a
termination bound only; pos strictly increases below endpos, so
heap.length is enough fuel. -/
def siftupLoop : Nat → List Nat → Nat → List Nat × Nat
  | 0, heap, pos => (heap, pos)
  | fuel + 1, heap, pos =>
    let endpos := heap.length
    let childpos := 2 * pos + 1
    if childpos < endpos then
      let rightpos := childpos + 1
      let c := if rightpos < endpos ∧ ¬ heap.getD childpos 0 < heap.getD rightpos 0
               then rightpos else childpos
      siftupLoop fuel (heap.set pos (heap.getD c 0)) c
    else (heap, pos)

/-- PriorityQueue.__siftup(heap, pos): save newitem = heap[pos], bubble the
hole to the bottom, write newitem there, and siftdown(heap, startpos, pos). -/
def siftup (heap : List Nat) (pos : Nat) : List Nat :=
  let startpos := pos
  let newitem := heap.getD pos 0
  let wr := siftupLoop heap.length heap pos
  siftdown (wr.1.set wr.2 newitem) startpos wr.2

/-- PriorityQueue._get (lines 517-524): lastelt = queue.pop(); if the rest
is non-empty, return queue[0] after moving lastelt to the root and sifting
up; otherwise return lastelt. -/
def prioGetCore (q : List Nat) : Option (Nat × List Nat) :=
  match q.getLast? with
  | none => none
  | some lastelt =>
    match q.dropLast with
    | [] => some (lastelt, [])
    | _ :: _ =>
      some (q.dropLast.getD 0 0, siftup ((q.dropLast).set 0 lastelt) 0)

/-- Outcome of Queue.put: either the new state or the Full exception (the
exception is raised before any mutation, so the carried state is the
unchanged queue object). -/
inductive PutRes where
  | ok (st : QueueState)
  | full (st : QueueState)
deriving Repr, DecidableEq

/-- Outcome of Queue.get: the item and new state, or the Empty exception
(raised before any mutation). -/
inductive GetRes where
  | ok (item : Nat) (st : QueueState)
  | empty (st : QueueState)
deriving Repr, DecidableEq

/-- Queue.put(item, block=False) (lines 427-441): raise Full when
len(queue) >= max_size, otherwise self._put(item) (and a notify that does
not touch the queue fields). -/
def queuePut (core : List Nat → Nat → List Nat) (st : QueueState) (item : Nat) : PutRes :=
  if st.maxSize ≤ st.queue.length then .full st
  else .ok { st with queue := core st.queue item }

/-- Queue.get(block=False) (lines 446-461): raise Empty when the queue is
empty, otherwise item = self._get() (and a notify that does not touch the
queue fields). -/
def queueGet (core : List Nat → Option (Nat × List Nat)) (st : QueueState) : GetRes :=
  if st.queue.length = 0 then .empty st
  else
    match core st.queue with
    | some (x, q2) => .ok x { st with queue := q2 }
    | none => .empty st

/-- Perform a sequence of non-blocking puts, failing if any raises Full. -/
def queuePutAll (core : List Nat → Nat → List Nat) :
    QueueState → List Nat → Option QueueState
  | st, [] => some st
  | st, x :: xs =>
    match queuePut core st x with
    | .full _ => none
    | .ok st2 => queuePutAll core st2 xs

/-- Repeatedly get until the queue reports Empty (fuel bounds the number of
gets; the queue length is enough). -/
def queueDrain (core : List Nat → Option (Nat × List Nat)) :
    Nat → QueueState → List Nat
  | 0, _ => []
  | fuel + 1, st =>
    match queueGet core st with
    | .empty _ => []
    | .ok x st2 => x :: queueDrain core fuel st2

/-- Build a queue of capacity items.length by non-blocking puts of all of
items, then drain it by non-blocking gets; none if some put raised Full. -/
def queueRound (putCore : List Nat → Nat → List Nat)
    (getCore : List Nat → Option (Nat × List Nat)) (items : List Nat) :
    Option (List Nat) :=
  match queuePutAll putCore ⟨[], items.length⟩ items with
  | none => none
  | some st => some (queueDrain getCore st.queue.length st)

/-! ## Lock (reentrant), my_threading.py lines 28-138

State: the raw _thread lock (a plain held/free bit), __owner, __locked_count,
__waiting_threads (a set of thread ids, modelled as a duplicate-free list),
__last_acquire_time.  Thread ids and times are Nat.  In the sequential
semantics of a single call, no other thread toggles the raw lock during the
call, so a raw acquire attempt succeeds exactly when the raw lock is free
at entry, and polling a lock that is held at entry never succeeds. -/

structure LockState where
  rawLocked : Bool
  owner : Option Nat
  lockedCount : Int
  waiting : List Nat
  lastAcquireTime : Nat
deriving Repr, DecidableEq

/-- The state produced by Lock.__init__. -/
def initLock : LockState := ⟨false, none, 0, [], 0⟩

/-- Python set.add on the duplicate-free list model. -/
def setAdd (s : List Nat) (x : Nat) : List Nat := if x ∈ s then s else x :: s

/-- Python set.remove (the element is always present at the call sites). -/
def setRemove (s : List Nat) (x : Nat) : List Nat := s.erase x

/-- Lock._check_deadlock (lines 58-67), evaluated at time now: the caller
is in the waiting set while the owner is also in the waiting set, or the
lock has been held (locked_count > 0) for more than 30000 ms. -/
def checkDeadlock (st : LockState) (tid : Nat) (now : Nat) : Bool :=
  (decide (tid ∈ st.waiting) &&
    (match st.owner with
     | some o => decide (o ∈ st.waiting)
     | none => false))
  || (decide (0 < st.lockedCount) && decide (30000 < now - st.lastAcquireTime))

/-- The timed polling loop of Lock.acquire (lines 95-99): try the raw lock;
on failure return False once the deadline has passed, else sleep 1 ms and
retry.  rawFree says whether a raw acquire attempt succeeds (constant during
the call in the sequential semantics); the fuel argument is a termination
bound only, and endTime - now is enough since now advances 1 ms per retry. -/
def pollLoop : Nat → Bool → Nat → Nat → Bool
  | 0, rawFree, _, _ => rawFree
  | fuel + 1, rawFree, endTime, now =>
    if rawFree then true
    else if endTime ≤ now then false
    else pollLoop fuel rawFree endTime (now + 1)

/-- Outcome of Lock.acquire: done (the returned bool and the new state),
the RuntimeError of the deadlock heuristic, or blocked forever (untimed
raw acquire of a lock that is held and, in the sequential semantics of the
call, never released). -/
inductive AcqOutcome where
  | done (success : Bool) (st : LockState)
  | deadlock (st : LockState)
  | blocked (st : LockState)
deriving Repr, DecidableEq

/-- Lock.acquire(timeout) called by thread tid at time now (lines 69-109).
If tid already owns the lock, bump the count.  Otherwise add tid to the
waiting set, run the deadlock heuristic (raising restores the waiting set
via the finally block), then either poll with a deadline or block on the
raw lock; on success record owner, count 1 and the acquire time, and the
finally block removes tid from the waiting set. -/
def lockAcquire (st : LockState) (tid : Nat) (timeoutMs : Option Nat) (now : Nat) :
    AcqOutcome :=
  if st.owner = some tid then
    .done true { st with lockedCount := st.lockedCount + 1 }
  else
    let w := setAdd st.waiting tid
    if checkDeadlock { st with waiting := w } tid now then
      .deadlock { st with waiting := setRemove w tid }
    else
      match timeoutMs with
      | some t =>
        if pollLoop t (!st.rawLocked) (now + t) now then
          .done true { st with rawLocked := true, owner := some tid, lockedCount := 1,
                               lastAcquireTime := now, waiting := setRemove w tid }
        else
          .done false { st with waiting := setRemove w tid }
      | none =>
        if st.rawLocked then .blocked { st with waiting := w }
        else
          .done true { st with rawLocked := true, owner := some tid, lockedCount := 1,
                               lastAcquireTime := now, waiting := setRemove w tid }

/-- Lock.release (lines 111-124): RuntimeError (none) unless the caller is
the recorded owner; otherwise decrement the count, and when it reaches 0
clear owner and acquire time and release the raw lock. -/
def lockRelease (st : LockState) (tid : Nat) : Option LockState :=
  if st.owner ≠ some tid then none
  else
    let c := st.lockedCount - 1
    if c = 0 then
      some { st with lockedCount := c, owner := none, lastAcquireTime := 0,
                     rawLocked := false }
    else some { st with lockedCount := c }

/-- Lock.locked (lines 126-128): the raw lock bit. -/
def lockLocked (st : LockState) : Bool := st.rawLocked

/-- One operation of a single-threaded acquire/release sequence. -/
inductive LockOp where
  | acq (timeoutMs : Option Nat)
  | rel
deriving Repr, DecidableEq

/-- Run one operation by thread tid at time now.  A raised exception
(non-owner release, deadlock heuristic) propagates to the caller leaving
the lock state unchanged apart from the restored waiting set; a blocked
untimed acquire cannot occur in a single-threaded run (proved below). -/
def lockStep (tid : Nat) (st : LockState) (op : LockOp) (now : Nat) : LockState :=
  match op with
  | .acq t =>
    match lockAcquire st tid t now with
    | .done _ st2 => st2
    | .deadlock st2 => st2
    | .blocked st2 => st2
  | .rel =>
    match lockRelease st tid with
    | some st2 => st2
    | none => st

/-- Run a timed sequence of operations by a single thread tid from a fresh
lock. -/
def lockRun (tid : Nat) (ops : List (LockOp × Nat)) : LockState :=
  ops.foldl (fun st p => lockStep tid st p.1 p.2) initLock

/-- The net reentrancy depth of a single-threaded operation sequence:
each acquire succeeds and adds one level; a release removes one level when
one is held and otherwise fails (leaving the depth at 0, which is what
Nat subtraction gives). -/
def netDepth (ops : List (LockOp × Nat)) : Nat :=
  ops.foldl (fun d p => match p.1 with | .acq _ => d + 1 | .rel => d - 1) 0

/-! ## AsyncTask, my_threading.py lines 640-772

The task is a state machine driven by two agents: the client thread, which
calls delay() and cancel(), and the backing Thread running __run.  Every
status field access in cancel/delay/__run is under self.__lock, so the
interleaving below is at the granularity of those locked regions:

  - beforeRun: the thread has been spawned by delay() but has not yet
    executed the first locked block of __run (status = RUNNING);
  - beforeCheck: __run has set status = RUNNING and finished the optional
    sleep, and is about to run its cancellation check followed by the
    target call and the completion block.

The check / target / completion region is taken as one step: cancel() can
only interleave with it while status = RUNNING, in which case cancel
forcibly terminates the thread (so the region never runs).  The target is
modelled by a run counter plus a flag saying whether it raises. -/

inductive TStatus where
  | pending | running | completed | failed | cancelled
deriving Repr, DecidableEq

/-- Program counter of the backing thread of __run. -/
inductive TPc where
  | notStarted | beforeRun | beforeCheck | finished
deriving Repr, DecidableEq

structure TaskState where
  status : TStatus
  threadSpawned : Bool
  threadAlive : Bool
  pc : TPc
  targetRuns : Nat
  targetFails : Bool
deriving Repr, DecidableEq

/-- The state produced by AsyncTask.__init__ for a target that raises iff
fails is true. -/
def initTask (fails : Bool) : TaskState :=
  ⟨.pending, false, false, .notStarted, 0, fails⟩

/-- AsyncTask.delay (lines 677-693): RuntimeError (none) unless status is
PENDING; otherwise spawn the backing thread running __run. -/
def taskDelay (st : TaskState) : Option TaskState :=
  if st.status ≠ .pending then none
  else some { st with threadSpawned := true, threadAlive := true, pc := .beforeRun }

/-- AsyncTask.cancel (lines 726-740): in PENDING flip to CANCELLED (thread
untouched) and return True; in RUNNING with a backing thread flip to
CANCELLED, terminate the thread and return True; otherwise return False. -/
def taskCancel (st : TaskState) : Bool × TaskState :=
  if st.status = .pending then (true, { st with status := .cancelled })
  else if st.status = .running ∧ st.threadSpawned then
    (true, { st with status := .cancelled, threadAlive := false })
  else (false, st)

/-- One scheduler step of the backing thread of __run (lines 695-724).  A
terminated or finished thread does nothing.  At beforeRun the thread sets
status = RUNNING.  At beforeCheck it returns immediately if status is
CANCELLED; otherwise the target runs and the task completes or fails. -/
def taskThreadStep (st : TaskState) : TaskState :=
  if !st.threadAlive then st
  else
    match st.pc with
    | .beforeRun => { st with status := .running, pc := .beforeCheck }
    | .beforeCheck =>
      if st.status = .cancelled then
        { st with pc := .finished, threadAlive := false }
      else if st.targetFails then
        { st with status := .failed, targetRuns := st.targetRuns + 1,
                  pc := .finished, threadAlive := false }
      else
        { st with status := .completed, targetRuns := st.targetRuns + 1,
                  pc := .finished, threadAlive := false }
    | _ => st

/-- Events of an AsyncTask history: client calls and thread steps.  Return
values of the calls are recoverable by applying taskDelay/taskCancel to
the state at that point. -/
inductive TaskEv where
  | delayCall | cancelCall | threadStep
deriving Repr, DecidableEq

/-- Apply one event (exceptions from delay leave the state unchanged). -/
def taskApply (st : TaskState) : TaskEv → TaskState
  | .delayCall => (taskDelay st).getD st
  | .cancelCall => (taskCancel st).2
  | .threadStep => taskThreadStep st

/-- Run an event history. -/
def taskRun (st : TaskState) (evs : List TaskEv) : TaskState :=
  evs.foldl taskApply st

/-! ## ThreadPoolExecutor, my_threading.py lines 775-884

_Result objects are identified by their creation index in a list of
finished flags.  A queued work item is the id of the _Result it owns
(none is the shutdown sentinel).  Note that ThreadPoolExecutor.submit
creates one _Result bound to the local name result (line 856) and then a
second one inside _WorkItem.__init__ (line 782); the worker only ever
completes the latter.  (Thread construction is abstracted to a worker
count; as written, line 867 would additionally raise TypeError because
this module's Thread.__init__ takes no name argument.) -/

structure PoolState where
  futures : List Bool
  workQueue : List (Option Nat)
  threads : Nat
  maxWorkers : Nat
  shutdown : Bool
deriving Repr, DecidableEq

/-- The state produced by ThreadPoolExecutor(max_workers). -/
def initPool (maxWorkers : Nat) : PoolState := ⟨[], [], 0, maxWorkers, false⟩

/-- _Result() in the pool model: allocate a fresh unfinished future and
return its id. -/
def newResult (st : PoolState) : Nat × PoolState :=
  (st.futures.length, { st with futures := st.futures ++ [false] })

/-- _WorkItem.__call__ (lines 784-792) for the item owning future fid: the
target runs, returning or raising, and either way self.result is set,
completing future fid. -/
def workItemCall (futures : List Bool) (fid : Nat) : List Bool :=
  futures.set fid true

/-- ThreadPoolExecutor.submit (lines 839-861): RuntimeError (none) after
shutdown; else result = _Result(), work = _WorkItem(fn, args, kwargs)
(which allocates its own _Result), enqueue work, spawn one more worker if
below the maximum, and return result.  The returned value is the id of
result, not of the work item's future. -/
def poolSubmit (st : PoolState) : Option (Nat × PoolState) :=
  if st.shutdown then none
  else
    let r1 := newResult st
    let r2 := newResult r1.2
    let st3 : PoolState := { r2.2 with workQueue := r2.2.workQueue ++ [some r2.1] }
    let st4 : PoolState :=
      if st3.threads < st3.maxWorkers
      then { st3 with threads := st3.threads + 1 } else st3
    some (r1.1, st4)

/-- The work performed by the persistent workers (_worker, lines 795-810)
while the pool is joined: dequeue items in FIFO order; a sentinel ends one
worker, any other item is invoked, completing the future it owns. -/
def drainWork (futures : List Bool) : List (Option Nat) → List Bool
  | [] => futures
  | none :: rest => drainWork futures rest
  | some fid :: rest => drainWork (workItemCall futures fid) rest

/-- ThreadPoolExecutor.shutdown(wait=True) (lines 872-883): set the
shutdown flag, enqueue one sentinel per worker, and join every worker;
joining returns once the workers have drained the whole queue (every
submitted item precedes the sentinels in FIFO order). -/
def poolShutdownWait (st : PoolState) : PoolState :=
  let q := st.workQueue ++ List.replicate st.threads none
  { st with shutdown := true, workQueue := [], futures := drainWork st.futures q }

/-! ## Predicates used by the proofs -/

/-- The binary min-heap shape maintained by PriorityQueue: every non-root
entry is at least its parent at (j - 1) >> 1. -/
def heapInvariant (l : List Nat) : Prop :=
  ∀ j, 0 < j → j < l.length → l.getD ((j - 1) / 2) 0 ≤ l.getD j 0

/-- Loop invariant of __siftdown (startpos = 0, as at both call sites):
pos is the hole the walk is filling, x the item being placed.  All heap
edges not pointing at pos hold, x fits above the children of pos, and the
children of pos also fit below the parent of pos (so moving that parent
into the hole keeps them ordered). -/
structure SiftdownInv (l : List Nat) (pos : Nat) (x : Nat) : Prop where
  hpos : pos < l.length
  edges : ∀ j, 0 < j → j < l.length → j ≠ pos → l.getD ((j - 1) / 2) 0 ≤ l.getD j 0
  child : ∀ j, 0 < j → j < l.length → (j - 1) / 2 = pos → x ≤ l.getD j 0
  grand : ∀ j, 0 < j → j < l.length → (j - 1) / 2 = pos → 0 < pos →
    l.getD ((pos - 1) / 2) 0 ≤ l.getD j 0

/-- Loop invariant of the descent phase of __siftup: pos is the hole.  All
heap edges whose parent is not pos hold, and the children of the hole fit
below the hole's own parent. -/
structure SiftupInv (l : List Nat) (pos : Nat) : Prop where
  hpos : pos < l.length
  edges : ∀ j, 0 < j → j < l.length → (j - 1) / 2 ≠ pos → l.getD ((j - 1) / 2) 0 ≤ l.getD j 0
  below : ∀ j, 0 < j → j < l.length → (j - 1) / 2 = pos → 0 < pos →
    l.getD ((pos - 1) / 2) 0 ≤ l.getD j 0

/-- Invariant of a single-threaded acquire/release history on a fresh Lock:
no thread is left in the waiting set, the reentrancy count equals the net
depth d, and owner/raw-lock are recorded exactly while d > 0. -/
def lockSingleInv (tid : Nat) (st : LockState) (d : Nat) : Prop :=
  st.waiting = [] ∧ st.lockedCount = (d : Int) ∧
  ((d = 0 ∧ st.owner = none ∧ st.rawLocked = false) ∨
   (0 < d ∧ st.owner = some tid ∧ st.rawLocked = true))

/-! ## Basic list lemmas -/

theorem getD_set_of_ne (l : List Nat) : ∀ (i j x : Nat), i ≠ j →
    (l.set i x).getD j 0 = l.getD j 0 := by
  induction l with
  | nil => intro i j x _; rfl
  | cons a t ih =>
    intro i j x h
    match i, j with
    | 0, 0 => exact absurd rfl h
    | 0, j + 1 => rfl
    | i + 1, 0 => rfl
    | i + 1, j + 1 =>
      show (t.set i x).getD j 0 = t.getD j 0
      exact ih i j x (by omega)

theorem getD_set_self (l : List Nat) : ∀ (i x : Nat), i < l.length →
    (l.set i x).getD i 0 = x := by
  induction l with
  | nil => intro i x h; simp at h
  | cons a t ih =>
    intro i x h
    match i with
    | 0 => rfl
    | i + 1 => exact ih i x (by simpa using h)

theorem set_getD_self (l : List Nat) : ∀ i, i < l.length →
    l.set i (l.getD i 0) = l := by
  induction l with
  | nil => intro i h; simp at h
  | cons a t ih =>
    intro i h
    match i with
    | 0 => rfl
    | i + 1 =>
      show a :: t.set i (t.getD i 0) = a :: t
      rw [ih i (by simpa using h)]

theorem getD_concat_self (l : List Nat) (x : Nat) : (l ++ [x]).getD l.length 0 = x := by
  induction l with
  | nil => rfl
  | cons a t ih => simp [ih]

theorem getD_concat_lt (l : List Nat) (x : Nat) : ∀ j, j < l.length →
    (l ++ [x]).getD j 0 = l.getD j 0 := by
  induction l with
  | nil => intro j h; simp at h
  | cons a t ih =>
    intro j h
    match j with
    | 0 => rfl
    | j + 1 => exact ih j (by simpa using h)

theorem perm_cons_set (l : List Nat) : ∀ (j x : Nat), j < l.length →
    (x :: l).Perm (l.getD j 0 :: l.set j x) := by
  induction l with
  | nil => intro j x h; simp at h
  | cons a t ih =>
    intro j x h
    match j with
    | 0 => exact List.Perm.swap a x t
    | j + 1 =>
      show (x :: a :: t).Perm (t.getD j 0 :: a :: t.set j x)
      exact (List.Perm.swap a x t).trans
        (((ih j x (by simpa using h)).cons a).trans (List.Perm.swap _ a _))

theorem ms_set (l : List Nat) (j x : Nat) (h : j < l.length) :
    (x ::ₘ (l : Multiset Nat)) = l.getD j 0 ::ₘ (↑(l.set j x) : Multiset Nat) := by
  rw [Multiset.cons_coe, Multiset.cons_coe, Multiset.coe_eq_coe]
  exact perm_cons_set l j x h

theorem ms_set_set (l : List Nat) (i j x : Nat) (hi : i < l.length) (hj : j < l.length)
    (hij : i ≠ j) :
    (↑((l.set i (l.getD j 0)).set j x) : Multiset Nat) = (↑(l.set i x) : Multiset Nat) := by
  have hj2 : j < (l.set i (l.getD j 0)).length := by simpa using hj
  have e3 : x ::ₘ (↑(l.set i (l.getD j 0)) : Multiset Nat) =
      l.getD j 0 ::ₘ (↑((l.set i (l.getD j 0)).set j x) : Multiset Nat) := by
    have h := ms_set (l.set i (l.getD j 0)) j x hj2
    rwa [getD_set_of_ne l i j (l.getD j 0) hij] at h
  have e2 : l.getD j 0 ::ₘ (↑l : Multiset Nat) =
      l.getD i 0 ::ₘ (↑(l.set i (l.getD j 0)) : Multiset Nat) := ms_set l i (l.getD j 0) hi
  have e4 : x ::ₘ (↑l : Multiset Nat) =
      l.getD i 0 ::ₘ (↑(l.set i x) : Multiset Nat) := ms_set l i x hi
  have key : l.getD i 0 ::ₘ l.getD j 0 ::ₘ (↑((l.set i (l.getD j 0)).set j x) : Multiset Nat) =
      l.getD i 0 ::ₘ l.getD j 0 ::ₘ (↑(l.set i x) : Multiset Nat) := by
    calc l.getD i 0 ::ₘ l.getD j 0 ::ₘ (↑((l.set i (l.getD j 0)).set j x) : Multiset Nat)
        = l.getD i 0 ::ₘ x ::ₘ (↑(l.set i (l.getD j 0)) : Multiset Nat) := by rw [e3]
      _ = x ::ₘ l.getD i 0 ::ₘ (↑(l.set i (l.getD j 0)) : Multiset Nat) :=
          Multiset.cons_swap _ _ _
      _ = x ::ₘ l.getD j 0 ::ₘ (↑l : Multiset Nat) := by rw [← e2]
      _ = l.getD j 0 ::ₘ x ::ₘ (↑l : Multiset Nat) := Multiset.cons_swap _ _ _
      _ = l.getD j 0 ::ₘ l.getD i 0 ::ₘ (↑(l.set i x) : Multiset Nat) := by rw [e4]
      _ = l.getD i 0 ::ₘ l.getD j 0 ::ₘ (↑(l.set i x) : Multiset Nat) :=
          Multiset.cons_swap _ _ _
  exact (Multiset.cons_inj_right _).mp ((Multiset.cons_inj_right _).mp key)

/-! ## Futures: claims C8 and C10 -/

/-- C8: for a single-shot Future, get(block := false) before any set fails
with the distinct not-ready condition; after set with a value X, get
returns X; after set with a failure E, get re-raises E; and in blocking
mode a timeout expiry produces a timeout condition distinct from the
not-ready condition. -/
theorem c8_future_get_set (x e t : Nat) (st : ResultState) (b : Bool) (topt : Option Nat) :
    resultGet initResult false topt = .notReady ∧
    resultGet (resultSet st none (some x)) b topt = .value (some x) ∧
    resultGet (resultSet st (some e) none) b topt = .raised e ∧
    resultGet initResult true (some t) = .timedOut ∧
    GetOutcome.timedOut ≠ GetOutcome.notReady := by
  cases b <;> simp [resultGet, resultSet, initResult, getValueOrRaiseExc]

/-- C10: if set is called with both a non-None failure and a value, every
subsequent get (blocking or not) raises the stored failure and the value
is unobservable: the failure takes precedence over the value. -/
theorem c10_failure_takes_precedence (st : ResultState) (e v : Nat) (b : Bool)
    (topt : Option Nat) :
    resultGet (resultSet st (some e) (some v)) b topt = .raised e ∧
    ∀ w, resultGet (resultSet st (some e) (some v)) b topt ≠ .value w := by
  cases b <;> simp [resultGet, resultSet, getValueOrRaiseExc]

/-! ## BoundedSemaphore: claim C6 -/

/-- C6 counterexample: for BoundedSemaphore(1) (permit count 1, ceiling 1),
already the first release() with no intervening acquire() raises, so it is
false that two consecutive release() calls fail only on the second. -/
theorem c6_counterexample :
    boundedRelease (initBoundedSemaphore 1) 1 = .errTooMany := by decide

/-- C6 (amended): for n >= 1, BoundedSemaphore.release(n) fails with an
error exactly when the resulting permit count would exceed the initial
value V, and otherwise increments the permit count by n; in particular for
BoundedSemaphore(1) already the first release() with no intervening
acquire() fails, while after one acquire() a release() succeeds and the
next one fails. -/
theorem c6_bounded_release (st : SemState) (n : Int) (hn : 1 ≤ n) :
    (st.initialValue < st.value + n → boundedRelease st n = .errTooMany) ∧
    (st.value + n ≤ st.initialValue →
      boundedRelease st n = .ok ⟨st.value + n, st.initialValue⟩) ∧
    boundedRelease (initBoundedSemaphore 1) 1 = .errTooMany ∧
    semAcquireNonBlocking (initBoundedSemaphore 1) = (true, ⟨0, 1⟩) ∧
    boundedRelease ⟨0, 1⟩ 1 = .ok ⟨1, 1⟩ ∧
    boundedRelease ⟨1, 1⟩ 1 = .errTooMany := by
  refine ⟨fun h => ?_, fun h => ?_, by decide, by decide, by decide, by decide⟩
  · unfold boundedRelease
    rw [if_neg (by omega), if_pos h]
  · unfold boundedRelease
    rw [if_neg (by omega), if_neg (by omega)]

/-- Witness for c6_bounded_release at st = (0, 3), n = 2. -/
theorem c6_bounded_release_witness :
    boundedRelease ⟨0, 3⟩ 2 = .ok ⟨2, 3⟩ :=
  (c6_bounded_release ⟨0, 3⟩ 2 (by decide)).2.1 (by decide)

/-! ## Condition.notify: claim C3 -/

theorem foldl_erase_take (l : List Nat) : ∀ m : Nat,
    (l.take m).foldl (fun ws w => ws.erase w) l = l.drop m := by
  induction l with
  | nil => intro m; simp
  | cons a t ih =>
    intro m
    match m with
    | 0 => rfl
    | m + 1 =>
      show (t.take m).foldl (fun ws w => ws.erase w) ((a :: t).erase a) = t.drop m
      rw [List.erase_cons_head]
      exact ih m

/-- C3: notify(n) wakes exactly min(n, number of queued waiters) waiters,
namely the earliest-queued prefix of the waiter list in queue order (wait
appends at the tail, so queue order is the order of the wait calls), the
remaining queue is the corresponding suffix, and any excess of n beyond
the queued waiters has no effect. -/
theorem c3_notify_fifo (waiters : List Nat) (n : Int) (w : Nat) :
    (condNotify waiters n).1.length = min n.toNat waiters.length ∧
    (condNotify waiters n).1 = waiters.take n.toNat ∧
    (condNotify waiters n).2 = waiters.drop n.toNat ∧
    condWaitEnqueue waiters w = waiters ++ [w] := by
  have hcl : (if n < 0 then (0 : Int) else n).toNat = n.toNat := by split <;> omega
  refine ⟨?_, ?_, ?_, rfl⟩
  · simp [condNotify, hcl]
  · simp [condNotify, hcl]
  · show (waiters.take (if n < 0 then (0 : Int) else n).toNat).foldl
      (fun ws w => ws.erase w) waiters = waiters.drop n.toNat
    rw [hcl, foldl_erase_take]

/-! ## AsyncTask: claim C9 -/

/-- C9: evaluation of the failing interleaving.  After delay() the task is
still PENDING until the spawned thread runs; cancel() called in that
window takes the PENDING branch, sets CANCELLED and returns True, yet the
thread then overwrites the status with RUNNING, the cancellation check in
__run does not fire, and the target executes, leaving the task COMPLETED
with the target run once - contradicting the claim that a cancel returning
True from PENDING prevents the target from ever executing. -/
theorem c9_pending_cancel_target_still_runs :
    (taskRun (initTask false) [TaskEv.delayCall]).status = .pending ∧
    taskCancel (taskRun (initTask false) [TaskEv.delayCall]) =
      (true, ⟨.cancelled, true, true, .beforeRun, 0, false⟩) ∧
    taskRun (initTask false) [TaskEv.delayCall, TaskEv.cancelCall,
      TaskEv.threadStep, TaskEv.threadStep] =
      ⟨.completed, true, false, .finished, 1, false⟩ := by
  decide

/-! ## ThreadPoolExecutor: claim C1 -/

/-- C1: evaluation at the failing input (a pool with one worker, one
submitted callable, then shutdown(wait := true)).  submit returns the
future with id 0, but enqueues a work item owning the distinct future
id 1; after shutdown the work item's own future is completed while the
future actually returned by submit is not - contradicting the claim that
every Future returned by a prior submit is completed. -/
theorem c1_returned_future_never_completed :
    poolSubmit (initPool 1) = some (0, ⟨[false, false], [some 1], 1, 1, false⟩) ∧
    poolShutdownWait ⟨[false, false], [some 1], 1, 1, false⟩ =
      ⟨[false, true], [], 1, 1, true⟩ ∧
    [false, true].getD 0 false = false ∧
    [false, true].getD 1 false = true := by
  decide

/-! ## Lock.acquire with timeout: claim C7 -/

theorem pollLoop_not_rawFree : ∀ (fuel endTime now : Nat),
    pollLoop fuel false endTime now = false := by
  intro fuel
  induction fuel with
  | zero => intro e n; rfl
  | succ k ih => intro e n; simp [pollLoop, ih]

/-- C7 counterexample: a Lock held by thread 1 since time 0, polled by
thread 2 at time 40000 with a positive timeout, raises the deadlock
heuristic RuntimeError (the lock has been held longer than the 30000 ms
staleness threshold) instead of returning false at the deadline. -/
theorem c7_counterexample :
    lockAcquire ⟨true, some 1, 1, [], 0⟩ 2 (some 5000) 40000 =
      .deadlock ⟨true, some 1, 1, [], 0⟩ := by
  decide

/-- C7 (amended): for a Lock held by another thread, acquire with a
timeout polls the raw lock with 1 ms sleeps and, when the lock never
becomes available, returns false once the deadline has elapsed without
raising - provided the deadlock heuristic does not fire at entry, i.e.
the holder is not registered as waiting and the lock has not already been
held beyond the 30000 ms staleness threshold (otherwise acquire raises
RuntimeError instead, as the counterexample shows). -/
theorem c7_timeout_returns_false (st : LockState) (tid u t now : Nat)
    (howner : st.owner = some u) (hu : u ≠ tid) (hraw : st.rawLocked = true)
    (huw : u ∉ st.waiting) (htw : tid ∉ st.waiting)
    (hfresh : now - st.lastAcquireTime ≤ 30000) :
    lockAcquire st tid (some t) now = .done false st := by
  have hne : ¬ st.owner = some tid := by simp only [howner, Option.some.injEq]; exact hu
  have hadd : setAdd st.waiting tid = tid :: st.waiting := by
    unfold setAdd; rw [if_neg htw]
  have hmem : decide (u ∈ tid :: st.waiting) = false := by
    simp only [List.mem_cons, decide_eq_false_iff_not, not_or]
    exact ⟨hu, huw⟩
  have hstale : decide (30000 < now - st.lastAcquireTime) = false := by
    simp only [decide_eq_false_iff_not, not_lt]
    omega
  have hdl : checkDeadlock { st with waiting := tid :: st.waiting } tid now = false := by
    simp only [checkDeadlock, howner]
    rw [hmem, hstale]
    simp
  have hrem : setRemove (tid :: st.waiting) tid = st.waiting :=
    List.erase_cons_head tid st.waiting
  have hpoll : pollLoop t (!st.rawLocked) (now + t) now = false := by
    rw [hraw]; exact pollLoop_not_rawFree t (now + t) now
  simp only [lockAcquire, hne, if_false, hadd, hdl, Bool.false_eq_true, hpoll, hrem]

/-- Witness for c7_timeout_returns_false: a lock held by thread 1 since
time 100, polled by thread 2 at time 200 with a 50 ms timeout. -/
theorem c7_timeout_returns_false_witness :
    lockAcquire ⟨true, some 1, 1, [], 100⟩ 2 (some 50) 200 =
      .done false ⟨true, some 1, 1, [], 100⟩ :=
  c7_timeout_returns_false ⟨true, some 1, 1, [], 100⟩ 2 1 50 200 rfl
    (by decide) rfl (by decide) (by decide) (by decide)

/-! ## Reentrant Lock: claim C2 -/

theorem pollLoop_rawFree : ∀ (fuel endTime now : Nat),
    pollLoop fuel true endTime now = true := by
  intro fuel
  cases fuel with
  | zero => intro e n; rfl
  | succ k => intro e n; simp [pollLoop]

theorem lockStep_inv (tid : Nat) (st : LockState) (d : Nat) (op : LockOp) (now : Nat)
    (h : lockSingleInv tid st d) :
    lockSingleInv tid (lockStep tid st op now)
      (match op with | .acq _ => d + 1 | .rel => d - 1) := by
  obtain ⟨hw, hc, hcase⟩ := h
  cases op with
  | acq tmo =>
    show lockSingleInv tid (lockStep tid st (.acq tmo) now) (d + 1)
    rcases hcase with ⟨hd0, hown, hraw⟩ | ⟨hdpos, hown, hraw⟩
    · -- the lock is free: the acquire succeeds and takes ownership
      have hne : ¬ st.owner = some tid := by simp [hown]
      have hadd : setAdd st.waiting tid = [tid] := by simp [setAdd, hw]
      have hdl : checkDeadlock { st with waiting := [tid] } tid now = false := by
        simp [checkDeadlock, hown, hc, hd0]
      have hrem : setRemove [tid] tid = [] := by simp [setRemove]
      have hdone : lockStep tid st (.acq tmo) now =
          ⟨true, some tid, 1, [], now⟩ := by
        cases tmo with
        | some t =>
          have hpoll : pollLoop t (!st.rawLocked) (now + t) now = true := by
            rw [hraw]; exact pollLoop_rawFree t (now + t) now
          simp only [lockStep, lockAcquire, hne, if_false, hadd, hdl,
            Bool.false_eq_true, hpoll, if_true, hrem]
        | none =>
          have hnraw : ¬ (st.rawLocked = true) := by rw [hraw]; simp
          simp only [lockStep, lockAcquire, hne, if_false, hadd, hdl,
            Bool.false_eq_true, hrem]
          rw [if_neg hnraw]
      rw [hdone]
      exact ⟨rfl, by simp [hd0], Or.inr ⟨by omega, rfl, rfl⟩⟩
    · -- already owned by tid: reentrant fast path
      have hown2 : st.owner = some tid := hown
      have hstep : lockStep tid st (.acq tmo) now =
          { st with lockedCount := st.lockedCount + 1 } := by
        simp only [lockStep, lockAcquire, hown2, if_true]
      rw [hstep]
      refine ⟨hw, by rw [hc]; push_cast; ring, Or.inr ⟨by omega, hown, hraw⟩⟩
  | rel =>
    show lockSingleInv tid (lockStep tid st .rel now) (d - 1)
    rcases hcase with ⟨hd0, hown, hraw⟩ | ⟨hdpos, hown, hraw⟩
    · -- not held: release raises, state unchanged
      have hne : st.owner ≠ some tid := by simp [hown]
      have hstep : lockStep tid st .rel now = st := by
        simp [lockStep, lockRelease, hne]
      rw [hstep]
      exact ⟨hw, by rw [hc, hd0], Or.inl ⟨by omega, hown, hraw⟩⟩
    · -- held by tid: the count drops by one
      have hnne : ¬ st.owner ≠ some tid := by simp [hown]
      by_cases hd1 : d = 1
      · have hceq : st.lockedCount - 1 = 0 := by rw [hc, hd1]; decide
        have hstep : lockStep tid st .rel now = ⟨false, none, 0, st.waiting, 0⟩ := by
          simp [lockStep, lockRelease, hnne, hceq]
        rw [hstep]
        exact ⟨hw, by simp [hd1], Or.inl ⟨by omega, rfl, rfl⟩⟩
      · have hcne : ¬ (st.lockedCount - 1 = 0) := by rw [hc]; omega
        have hstep : lockStep tid st .rel now =
            { st with lockedCount := st.lockedCount - 1 } := by
          simp [lockStep, lockRelease, hnne, hcne]
        rw [hstep]
        exact ⟨hw, by rw [hc]; push_cast; omega, Or.inr ⟨by omega, hown, hraw⟩⟩

theorem lockRun_inv (tid : Nat) : ∀ (ops : List (LockOp × Nat)) (st : LockState) (d : Nat),
    lockSingleInv tid st d →
    lockSingleInv tid (ops.foldl (fun s p => lockStep tid s p.1 p.2) st)
      (ops.foldl (fun x p => match p.1 with | .acq _ => x + 1 | .rel => x - 1) d) := by
  intro ops
  induction ops with
  | nil => intro st d h; exact h
  | cons p rest ih =>
    intro st d h
    exact ih (lockStep tid st p.1 p.2)
      (match p.1 with | .acq _ => d + 1 | .rel => d - 1)
      (lockStep_inv tid st d p.1 p.2 h)

/-- C2: over any single-threaded acquire/release sequence on a fresh
reentrant Lock, the lock reports held exactly when the net reentrancy
depth is positive, an owner is recorded exactly when the depth is
positive, the stored count equals the net depth, a release by any thread
other than the recorded owner always fails with the ownership error, and
a successful release frees the underlying raw lock exactly when the depth
has returned to 0. -/
theorem c2_reentrant_lock_depth (tid : Nat) (ops : List (LockOp × Nat)) :
    (lockLocked (lockRun tid ops) = true ↔ 0 < netDepth ops) ∧
    ((lockRun tid ops).owner.isSome = true ↔ 0 < netDepth ops) ∧
    (lockRun tid ops).lockedCount = (netDepth ops : Int) ∧
    (∀ st tid2, st.owner ≠ some tid2 → lockRelease st tid2 = none) ∧
    (∀ st2, lockRelease (lockRun tid ops) tid = some st2 →
      (st2.rawLocked = false ↔ st2.lockedCount = 0)) := by
  have hinit : lockSingleInv tid initLock 0 := ⟨rfl, rfl, Or.inl ⟨rfl, rfl, rfl⟩⟩
  have hinv : lockSingleInv tid (lockRun tid ops) (netDepth ops) :=
    lockRun_inv tid ops initLock 0 hinit
  obtain ⟨hw, hc, hcase⟩ := hinv
  refine ⟨?_, ?_, hc, ?_, ?_⟩
  · rcases hcase with ⟨hd0, _, hraw⟩ | ⟨hdpos, _, hraw⟩
    · rw [lockLocked, hraw]; simp [hd0]
    · rw [lockLocked, hraw]; simp [hdpos]
  · rcases hcase with ⟨hd0, hown, _⟩ | ⟨hdpos, hown, _⟩
    · rw [hown]; simp [hd0]
    · rw [hown]; simp [hdpos]
  · intro st tid2 hne
    unfold lockRelease
    rw [if_pos hne]
  · intro st2 hrel
    rcases hcase with ⟨hd0, hown, _⟩ | ⟨hdpos, hown, hraw⟩
    · have hne : (lockRun tid ops).owner ≠ some tid := by simp [hown]
      unfold lockRelease at hrel
      rw [if_pos hne] at hrel
      exact Option.noConfusion hrel
    · have hnne : ¬ (lockRun tid ops).owner ≠ some tid := by simp [hown]
      unfold lockRelease at hrel
      rw [if_neg hnne] at hrel
      by_cases hz : (lockRun tid ops).lockedCount - 1 = 0
      · rw [if_pos hz] at hrel
        obtain rfl : st2 = ({ (lockRun tid ops) with
            lockedCount := (lockRun tid ops).lockedCount - 1,
            owner := none, lastAcquireTime := 0, rawLocked := false } : LockState) := by
          injection hrel with h
          exact h.symm
        simp [hz]
      · rw [if_neg hz] at hrel
        obtain rfl : st2 = ({ (lockRun tid ops) with
            lockedCount := (lockRun tid ops).lockedCount - 1 } : LockState) := by
          injection hrel with h
          exact h.symm
        simp [hz, hraw]

/-- Witness for c2_reentrant_lock_depth at tid = 1 and the one-acquire
history, with the inner hypotheses discharged at concrete states. -/
theorem c2_reentrant_lock_depth_witness :
    lockRelease ⟨true, some 1, 1, [], 0⟩ 2 = none ∧
    ((⟨false, none, 0, [], 0⟩ : LockState).rawLocked = false ↔
      (⟨false, none, 0, [], 0⟩ : LockState).lockedCount = 0) := by
  have h := c2_reentrant_lock_depth 1 [(LockOp.acq none, 0)]
  exact ⟨h.2.2.2.1 ⟨true, some 1, 1, [], 0⟩ 2 (by decide),
    h.2.2.2.2 ⟨false, none, 0, [], 0⟩ (by decide)⟩

/-! ## Queue capacity: claim C4 -/

theorem queuePutAll_fifo : ∀ (items : List Nat) (st : QueueState),
    st.queue.length + items.length ≤ st.maxSize →
    queuePutAll queuePutCore st items = some ⟨st.queue ++ items, st.maxSize⟩ := by
  intro items
  induction items with
  | nil => intro st h; simp [queuePutAll]
  | cons x xs ih =>
    intro st h
    have hlt : ¬ st.maxSize ≤ st.queue.length := by
      simp only [List.length_cons] at h; omega
    have hstep : queuePut queuePutCore st x =
        .ok ⟨st.queue ++ [x], st.maxSize⟩ := by
      unfold queuePut
      rw [if_neg hlt]
      rfl
    unfold queuePutAll
    rw [hstep]
    have h2 : (⟨st.queue ++ [x], st.maxSize⟩ : QueueState).queue.length + xs.length ≤
        (⟨st.queue ++ [x], st.maxSize⟩ : QueueState).maxSize := by
      simp only [List.length_cons] at h
      simp only [List.length_append, List.length_singleton]
      omega
    show queuePutAll queuePutCore ⟨st.queue ++ [x], st.maxSize⟩ xs =
      some ⟨st.queue ++ x :: xs, st.maxSize⟩
    rw [ih ⟨st.queue ++ [x], st.maxSize⟩ h2]
    simp

/-- C4: for a Queue of capacity C starting empty, C consecutive
non-blocking puts all succeed, the next non-blocking put fails with Full
leaving the queue unchanged, a subsequent get returns the head, after
which exactly one more non-blocking put succeeds (the one after it fails
again); and a non-blocking get on an empty queue fails with Empty. -/
theorem c4_queue_capacity (C : Nat) (items : List Nat) (x y : Nat)
    (hlen : items.length = C) (hC : 0 < C) :
    queuePutAll queuePutCore ⟨[], C⟩ items = some ⟨items, C⟩ ∧
    queuePut queuePutCore ⟨items, C⟩ x = .full ⟨items, C⟩ ∧
    queueGet queueGetCore ⟨items, C⟩ = .ok (items.headD 0) ⟨items.tail, C⟩ ∧
    queuePut queuePutCore ⟨items.tail, C⟩ y = .ok ⟨items.tail ++ [y], C⟩ ∧
    queuePut queuePutCore ⟨items.tail ++ [y], C⟩ x = .full ⟨items.tail ++ [y], C⟩ ∧
    queueGet queueGetCore ⟨[], C⟩ = .empty ⟨[], C⟩ := by
  obtain ⟨i, rest, rfl⟩ : ∃ i rest, items = i :: rest := by
    cases items with
    | nil => simp at hlen; omega
    | cons i r => exact ⟨i, r, rfl⟩
  have hrest : rest.length = C - 1 := by simp at hlen; omega
  refine ⟨?_, ?_, ?_, ?_, ?_, ?_⟩
  · have h := queuePutAll_fifo (i :: rest) ⟨[], C⟩
      (by simp only [List.length_cons] at hlen; simp; omega)
    simpa using h
  · unfold queuePut
    rw [if_pos (by simp [hlen])]
  · unfold queueGet
    rw [if_neg (by simp)]
    rfl
  · unfold queuePut
    rw [if_neg (by simp only [List.length_cons] at hlen; simp; omega)]
    rfl
  · unfold queuePut
    rw [if_pos (by simp only [List.length_cons] at hlen; simp; omega)]
  · rfl

/-- Witness for c4_queue_capacity at C = 3, items = [1, 2, 3]. -/
theorem c4_queue_capacity_witness :
    queuePutAll queuePutCore ⟨[], 3⟩ [1, 2, 3] = some ⟨[1, 2, 3], 3⟩ ∧
    queuePut queuePutCore ⟨[1, 2, 3], 3⟩ 9 = .full ⟨[1, 2, 3], 3⟩ ∧
    queueGet queueGetCore ⟨[1, 2, 3], 3⟩ = .ok 1 ⟨[2, 3], 3⟩ ∧
    queuePut queuePutCore ⟨[2, 3], 3⟩ 7 = .ok ⟨[2, 3, 7], 3⟩ ∧
    queuePut queuePutCore ⟨[2, 3, 7], 3⟩ 9 = .full ⟨[2, 3, 7], 3⟩ ∧
    queueGet queueGetCore ⟨[], 3⟩ = .empty ⟨[], 3⟩ :=
  c4_queue_capacity 3 [1, 2, 3] 9 7 rfl (by decide)

/-! ## PriorityQueue heap correctness: claim C5 -/

theorem heap_root_le (l : List Nat) (hl : heapInvariant l) :
    ∀ j, j < l.length → l.getD 0 0 ≤ l.getD j 0 := by
  intro j
  induction j using Nat.strong_induction_on with
  | _ j ih =>
    intro hj
    rcases Nat.eq_zero_or_pos j with h0 | hpos
    · subst h0; exact le_refl _
    · have hp : (j - 1) / 2 < j := by omega
      exact le_trans (ih _ hp (lt_trans hp hj)) (hl j hpos hj)

theorem heap_root_le_mem (l : List Nat) (hl : heapInvariant l) :
    ∀ b ∈ l, l.getD 0 0 ≤ b := by
  intro b hb
  obtain ⟨i, hi, hget⟩ := List.mem_iff_getElem.mp hb
  rw [← hget, ← List.getD_eq_getElem l 0 hi]
  exact heap_root_le l hl i hi

theorem siftdown_write_heap (l : List Nat) (pos x : Nat) (inv : SiftdownInv l pos x)
    (hstop : pos = 0 ∨ l.getD ((pos - 1) / 2) 0 ≤ x) :
    heapInvariant (l.set pos x) := by
  intro j hj hjlen
  rw [List.length_set] at hjlen
  by_cases hjp : j = pos
  · subst hjp
    have hne : j ≠ (j - 1) / 2 := by omega
    rw [getD_set_of_ne l j ((j - 1) / 2) x hne, getD_set_self l j x hjlen]
    rcases hstop with h0 | hle
    · omega
    · exact hle
  · by_cases hpj : (j - 1) / 2 = pos
    · rw [hpj, getD_set_self l pos x inv.hpos,
        getD_set_of_ne l pos j x (fun h => hjp h.symm)]
      exact inv.child j hj hjlen hpj
    · rw [getD_set_of_ne l pos j x (fun h => hjp h.symm),
        getD_set_of_ne l pos ((j - 1) / 2) x (fun h => hpj h.symm)]
      exact inv.edges j hj hjlen hjp

theorem siftdown_step_inv (l : List Nat) (pos x : Nat) (inv : SiftdownInv l pos x)
    (hpos : 0 < pos) (hlt : x < l.getD ((pos - 1) / 2) 0) :
    SiftdownInv (l.set pos (l.getD ((pos - 1) / 2) 0)) ((pos - 1) / 2) x := by
  have hpplt : (pos - 1) / 2 < pos := by omega
  have hpplen : (pos - 1) / 2 < l.length := lt_trans hpplt inv.hpos
  have hppne : (pos - 1) / 2 ≠ pos := by omega
  refine ⟨by simpa using hpplen, ?_, ?_, ?_⟩
  · -- edges
    intro j hj hjlen hjne
    rw [List.length_set] at hjlen
    by_cases hjp : j = pos
    · subst hjp
      rw [getD_set_self l j _ inv.hpos,
        getD_set_of_ne l j ((j - 1) / 2) _ (fun h => hppne h.symm)]
    · by_cases hpj : (j - 1) / 2 = pos
      · rw [hpj, getD_set_self l pos _ inv.hpos,
          getD_set_of_ne l pos j _ (fun h => hjp h.symm)]
        exact inv.grand j hj hjlen hpj hpos
      · rw [getD_set_of_ne l pos j _ (fun h => hjp h.symm),
          getD_set_of_ne l pos ((j - 1) / 2) _ (fun h => hpj h.symm)]
        exact inv.edges j hj hjlen hjp
  · -- child
    intro j hj hjlen hpj
    rw [List.length_set] at hjlen
    by_cases hjp : j = pos
    · subst hjp
      rw [getD_set_self l j _ inv.hpos]
      exact le_of_lt hlt
    · rw [getD_set_of_ne l pos j _ (fun h => hjp h.symm)]
      have hedge := inv.edges j hj hjlen hjp
      rw [hpj] at hedge
      exact le_trans (le_of_lt hlt) hedge
  · -- grand
    intro j hj hjlen hpj hpp0
    rw [List.length_set] at hjlen
    have hgpne : pos ≠ ((pos - 1) / 2 - 1) / 2 := by omega
    rw [getD_set_of_ne l pos (((pos - 1) / 2 - 1) / 2) _ hgpne]
    have hppedge := inv.edges ((pos - 1) / 2) hpp0 hpplen hppne
    by_cases hjp : j = pos
    · subst hjp
      rw [getD_set_self l j _ inv.hpos]
      exact hppedge
    · rw [getD_set_of_ne l pos j _ (fun h => hjp h.symm)]
      have hedge := inv.edges j hj hjlen hjp
      rw [hpj] at hedge
      exact le_trans hppedge hedge

theorem siftdownLoop_spec : ∀ (fuel : Nat) (l : List Nat) (pos x : Nat),
    pos ≤ fuel → SiftdownInv l pos x →
    heapInvariant (siftdownLoop fuel l 0 pos x) ∧
    (↑(siftdownLoop fuel l 0 pos x) : Multiset Nat) = ↑(l.set pos x) ∧
    (siftdownLoop fuel l 0 pos x).length = l.length := by
  intro fuel
  induction fuel with
  | zero =>
    intro l pos x hf inv
    have hpos0 : pos = 0 := by omega
    subst hpos0
    exact ⟨siftdown_write_heap l 0 x inv (Or.inl rfl), rfl, by simp [siftdownLoop]⟩
  | succ fuel ih =>
    intro l pos x hf inv
    show heapInvariant (siftdownLoop (fuel + 1) l 0 pos x) ∧ _ ∧ _
    rcases Nat.eq_zero_or_pos pos with h0 | hpos
    · subst h0
      simp only [siftdownLoop]
      rw [if_neg (lt_irrefl 0)]
      exact ⟨siftdown_write_heap l 0 x inv (Or.inl rfl), rfl, by simp [siftdownLoop]⟩
    · simp only [siftdownLoop]
      rw [if_pos hpos]
      by_cases hx : x < l.getD ((pos - 1) / 2) 0
      · rw [if_pos hx]
        have hf2 : (pos - 1) / 2 ≤ fuel := by omega
        obtain ⟨hh, hm, hlen⟩ := ih (l.set pos (l.getD ((pos - 1) / 2) 0))
          ((pos - 1) / 2) x hf2 (siftdown_step_inv l pos x inv hpos hx)
        refine ⟨hh, ?_, by rw [hlen]; simp⟩
        rw [hm]
        exact ms_set_set l pos ((pos - 1) / 2) x inv.hpos
          (lt_trans (by omega) inv.hpos) (by omega)
      · rw [if_neg hx]
        exact ⟨siftdown_write_heap l pos x inv (Or.inr (not_lt.mp hx)), rfl, by simp⟩

theorem prioPutCore_spec (l : List Nat) (x : Nat) (hl : heapInvariant l) :
    heapInvariant (prioPutCore l x) ∧
    (↑(prioPutCore l x) : Multiset Nat) = x ::ₘ ↑l ∧
    (prioPutCore l x).length = l.length + 1 := by
  have hinv : SiftdownInv (l ++ [x]) l.length x := by
    refine ⟨by simp, ?_, ?_, ?_⟩
    · intro j hj hjlen hjne
      rw [List.length_append, List.length_singleton] at hjlen
      have hjl : j < l.length := by omega
      rw [getD_concat_lt l x j hjl, getD_concat_lt l x ((j - 1) / 2) (by omega)]
      exact hl j hj hjl
    · intro j hj hjlen hpj
      rw [List.length_append, List.length_singleton] at hjlen
      omega
    · intro j hj hjlen hpj
      rw [List.length_append, List.length_singleton] at hjlen
      omega
  have hdef : prioPutCore l x =
      siftdownLoop l.length (l ++ [x]) 0 l.length x := by
    show siftdownLoop l.length (l ++ [x]) 0 l.length ((l ++ [x]).getD l.length 0) = _
    rw [getD_concat_self]
  obtain ⟨hh, hm, hlen⟩ := siftdownLoop_spec l.length (l ++ [x]) l.length x
    (le_refl _) hinv
  have hset : (l ++ [x]).set l.length x = l ++ [x] := by
    have h2 := set_getD_self (l ++ [x]) l.length (by simp)
    rwa [getD_concat_self] at h2
  refine ⟨hdef ▸ hh, ?_, by rw [hdef, hlen]; simp⟩
  rw [hdef, hm, hset]
  rw [show ((↑(l ++ [x]) : Multiset Nat) = x ::ₘ ↑l) from ?_]
  rw [Multiset.cons_coe, Multiset.coe_eq_coe]
  exact List.perm_append_singleton x l

theorem siftup_step_inv (l : List Nat) (pos c : Nat) (inv : SiftupInv l pos)
    (hcpos : 0 < c) (hc : (c - 1) / 2 = pos) (hclen : c < l.length)
    (hmin : ∀ j, 0 < j → j < l.length → (j - 1) / 2 = pos → l.getD c 0 ≤ l.getD j 0) :
    SiftupInv (l.set pos (l.getD c 0)) c := by
  have hcne : pos ≠ c := by omega
  refine ⟨by simpa using hclen, ?_, ?_⟩
  · -- edges
    intro j hj hjlen hjne
    rw [List.length_set] at hjlen
    by_cases hpj : (j - 1) / 2 = pos
    · have hjpos : j ≠ pos := by omega
      rw [hpj, getD_set_self l pos _ inv.hpos,
        getD_set_of_ne l pos j _ (fun h => hjpos h.symm)]
      exact hmin j hj hjlen hpj
    · by_cases hjp : j = pos
      · subst hjp
        have hppne : j ≠ (j - 1) / 2 := by omega
        rw [getD_set_self l j _ inv.hpos,
          getD_set_of_ne l j ((j - 1) / 2) _ hppne]
        exact inv.below c hcpos hclen hc hj
      · rw [getD_set_of_ne l pos j _ (fun h => hjp h.symm),
          getD_set_of_ne l pos ((j - 1) / 2) _ (fun h => hpj h.symm)]
        exact inv.edges j hj hjlen hpj
  · -- below
    intro j hj hjlen hcj _
    rw [List.length_set] at hjlen
    have hjpos : j ≠ pos := by omega
    rw [hc, getD_set_self l pos _ inv.hpos,
      getD_set_of_ne l pos j _ (fun h => hjpos h.symm)]
    have hedge := inv.edges j hj hjlen (by rw [hcj]; omega)
    rw [hcj] at hedge
    exact hedge

theorem siftupLoop_spec : ∀ (fuel : Nat) (l : List Nat) (pos : Nat),
    l.length - pos ≤ fuel → SiftupInv l pos →
    (siftupLoop fuel l pos).1.length = l.length ∧
    SiftupInv (siftupLoop fuel l pos).1 (siftupLoop fuel l pos).2 ∧
    ¬ (2 * (siftupLoop fuel l pos).2 + 1 < (siftupLoop fuel l pos).1.length) ∧
    ∀ x, (↑((siftupLoop fuel l pos).1.set (siftupLoop fuel l pos).2 x) : Multiset Nat) =
      ↑(l.set pos x) := by
  intro fuel
  induction fuel with
  | zero =>
    intro l pos hf inv
    have := inv.hpos
    omega
  | succ fuel ih =>
    intro l pos hf inv
    have hstep : ∀ c, 0 < c → (c - 1) / 2 = pos → c < l.length →
        (∀ j, 0 < j → j < l.length → (j - 1) / 2 = pos → l.getD c 0 ≤ l.getD j 0) →
        (siftupLoop fuel (l.set pos (l.getD c 0)) c).1.length = l.length ∧
        SiftupInv (siftupLoop fuel (l.set pos (l.getD c 0)) c).1
          (siftupLoop fuel (l.set pos (l.getD c 0)) c).2 ∧
        ¬ (2 * (siftupLoop fuel (l.set pos (l.getD c 0)) c).2 + 1 <
            (siftupLoop fuel (l.set pos (l.getD c 0)) c).1.length) ∧
        ∀ x, (↑((siftupLoop fuel (l.set pos (l.getD c 0)) c).1.set
            (siftupLoop fuel (l.set pos (l.getD c 0)) c).2 x) : Multiset Nat) =
          ↑(l.set pos x) := by
      intro c hcpos hcp hclen hcmin
      have hf2 : (l.set pos (l.getD c 0)).length - c ≤ fuel := by
        rw [List.length_set]; omega
      obtain ⟨hlen, hinv, hleaf, hms⟩ := ih (l.set pos (l.getD c 0)) c hf2
        (siftup_step_inv l pos c inv hcpos hcp hclen hcmin)
      rw [List.length_set] at hlen
      refine ⟨hlen, hinv, hleaf, ?_⟩
      intro x
      rw [hms x]
      exact ms_set_set l pos c x inv.hpos hclen (by omega)
    by_cases hch : 2 * pos + 1 < l.length
    · simp only [siftupLoop]
      rw [if_pos hch]
      by_cases hr : 2 * pos + 1 + 1 < l.length ∧
          ¬ l.getD (2 * pos + 1) 0 < l.getD (2 * pos + 1 + 1) 0
      · rw [if_pos hr]
        refine hstep (2 * pos + 1 + 1) (by omega) (by omega) hr.1 ?_
        intro j hj hjlen hpj
        have : j = 2 * pos + 1 ∨ j = 2 * pos + 2 := by omega
        rcases this with h1 | h2
        · subst h1
          exact not_lt.mp hr.2
        · subst h2
          exact le_refl _
      · rw [if_neg hr]
        refine hstep (2 * pos + 1) (by omega) (by omega) hch ?_
        intro j hj hjlen hpj
        have : j = 2 * pos + 1 ∨ j = 2 * pos + 2 := by omega
        rcases this with h1 | h2
        · subst h1; exact le_refl _
        · subst h2
          have hlt : l.getD (2 * pos + 1) 0 < l.getD (2 * pos + 1 + 1) 0 := by
            by_contra hnot
            exact hr ⟨by omega, hnot⟩
          exact le_of_lt hlt
    · simp only [siftupLoop]
      rw [if_neg hch]
      exact ⟨rfl, inv, hch, fun x => rfl⟩

theorem siftup_spec (l : List Nat) (inv : SiftupInv l 0) :
    heapInvariant (siftup l 0) ∧ (↑(siftup l 0) : Multiset Nat) = ↑l ∧
    (siftup l 0).length = l.length := by
  have h0 : 0 < l.length := inv.hpos
  obtain ⟨hlen, hinv2, hleaf, hms⟩ := siftupLoop_spec l.length l 0 (by omega) inv
  have hf := hinv2.hpos
  rw [hlen] at hf
  have hdef : siftup l 0 =
      siftdownLoop (siftupLoop l.length l 0).2
        ((siftupLoop l.length l 0).1.set (siftupLoop l.length l 0).2 (l.getD 0 0))
        0 (siftupLoop l.length l 0).2 (l.getD 0 0) := by
    show siftdownLoop _ _ 0 _
      (((siftupLoop l.length l 0).1.set (siftupLoop l.length l 0).2 (l.getD 0 0)).getD
        (siftupLoop l.length l 0).2 0) = _
    rw [getD_set_self _ _ _ hinv2.hpos]
  have hsdinv : SiftdownInv
      ((siftupLoop l.length l 0).1.set (siftupLoop l.length l 0).2 (l.getD 0 0))
      (siftupLoop l.length l 0).2 (l.getD 0 0) := by
    refine ⟨by simpa using hinv2.hpos, ?_, ?_, ?_⟩
    · intro j hj hjlen hjne
      rw [List.length_set] at hjlen
      have hpne : (j - 1) / 2 ≠ (siftupLoop l.length l 0).2 := by
        intro heq
        omega
      rw [getD_set_of_ne _ _ j _ (fun h => hjne h.symm),
        getD_set_of_ne _ _ ((j - 1) / 2) _ (fun h => hpne h.symm)]
      exact hinv2.edges j hj hjlen hpne
    · intro j hj hjlen hpj
      rw [List.length_set] at hjlen
      omega
    · intro j hj hjlen hpj _
      rw [List.length_set] at hjlen
      omega
  obtain ⟨hh, hm, hlen2⟩ := siftdownLoop_spec (siftupLoop l.length l 0).2
    ((siftupLoop l.length l 0).1.set (siftupLoop l.length l 0).2 (l.getD 0 0))
    (siftupLoop l.length l 0).2 (l.getD 0 0) (le_refl _) hsdinv
  rw [← hdef] at hh hm hlen2
  refine ⟨hh, ?_, by rw [hlen2, List.length_set, hlen]⟩
  rw [hm, List.set_set]
  rw [hms (l.getD 0 0)]
  rw [set_getD_self l 0 h0]
theorem queueGet_of_core (core : List Nat → Option (Nat × List Nat)) (st : QueueState)
    (x : Nat) (q2 : List Nat) (hne : ¬ st.queue.length = 0)
    (h : core st.queue = some (x, q2)) :
    queueGet core st = .ok x ⟨q2, st.maxSize⟩ := by
  unfold queueGet
  rw [if_neg hne, h]

theorem queueDrain_cons (core : List Nat → Option (Nat × List Nat)) (fuel : Nat)
    (st : QueueState) (x : Nat) (st2 : QueueState) (h : queueGet core st = .ok x st2) :
    queueDrain core (fuel + 1) st = x :: queueDrain core fuel st2 := by
  show (match queueGet core st with
    | .empty _ => []
    | .ok y st3 => y :: queueDrain core fuel st3) = _
  rw [h]

theorem queueDrain_of_empty (core : List Nat → Option (Nat × List Nat)) (fuel : Nat)
    (st : QueueState) (h : st.queue.length = 0) :
    queueDrain core (fuel + 1) st = [] := by
  show (match queueGet core st with
    | .empty _ => []
    | .ok y st3 => y :: queueDrain core fuel st3) = _
  unfold queueGet
  rw [if_pos h]

theorem heapInvariant_nil : heapInvariant [] := by
  intro j hj hjlen
  simp at hjlen

theorem prioGetCore_spec (l : List Nat) (hl : heapInvariant l) (hne : l ≠ []) :
    ∃ l2, prioGetCore l = some (l.getD 0 0, l2) ∧ heapInvariant l2 ∧
      (↑l : Multiset Nat) = l.getD 0 0 ::ₘ ↑l2 ∧ l2.length + 1 = l.length := by
  obtain ⟨t, x, rfl⟩ : ∃ t x, l = t ++ [x] := by
    rcases List.eq_nil_or_concat l with h | ⟨t, x, h⟩
    · exact absurd h hne
    · exact ⟨t, x, by simpa [List.concat_eq_append] using h⟩
  have hlast : (t ++ [x]).getLast? = some x := List.getLast?_concat t
  have hdl : (t ++ [x]).dropLast = t := List.dropLast_concat
  cases t with
  | nil =>
    refine ⟨[], ?_, heapInvariant_nil, ?_, rfl⟩
    · unfold prioGetCore
      rw [hlast, hdl]
      rfl
    · rw [Multiset.cons_coe]
      rfl
  | cons r0 rs =>
    have htlen : 0 < (r0 :: rs).length := by simp
    have hgetj : ∀ j, j < (r0 :: rs).length →
        (r0 :: rs).getD j 0 = ((r0 :: rs) ++ [x]).getD j 0 := by
      intro j hj
      rw [getD_concat_lt (r0 :: rs) x j hj]
    have hinv : SiftupInv ((r0 :: rs).set 0 x) 0 := by
      refine ⟨by simp, ?_, ?_⟩
      · intro j hj hjlen hpj
        rw [List.length_set] at hjlen
        rw [getD_set_of_ne (r0 :: rs) 0 j _ (by omega),
          getD_set_of_ne (r0 :: rs) 0 ((j - 1) / 2) _ (fun h => hpj h.symm)]
        rw [hgetj j hjlen, hgetj ((j - 1) / 2) (by omega)]
        exact hl j hj (by simp at hjlen ⊢; omega)
      · intro j hj hjlen hpj hpos
        omega
    obtain ⟨hheap, hms, hlen⟩ := siftup_spec ((r0 :: rs).set 0 x) hinv
    refine ⟨siftup ((r0 :: rs).set 0 x) 0, ?_, hheap, ?_, ?_⟩
    · unfold prioGetCore
      rw [hlast, hdl]
      rw [show ((r0 :: rs) ++ [x]).getD 0 0 = (r0 :: rs).getD 0 0 from
        getD_concat_lt (r0 :: rs) x 0 htlen]
    · rw [hms]
      have h1 : x ::ₘ (↑(r0 :: rs) : Multiset Nat) =
          (r0 :: rs).getD 0 0 ::ₘ ↑((r0 :: rs).set 0 x) :=
        ms_set (r0 :: rs) 0 x htlen
      rw [show ((r0 :: rs) ++ [x]).getD 0 0 = (r0 :: rs).getD 0 0 from
        getD_concat_lt (r0 :: rs) x 0 htlen]
      rw [← h1]
      rw [Multiset.cons_coe, Multiset.coe_eq_coe]
      exact List.perm_append_singleton x (r0 :: rs)
    · rw [hlen, List.length_set]
      simp

theorem queuePutAll_prio : ∀ (items : List Nat) (st : QueueState),
    heapInvariant st.queue → st.queue.length + items.length ≤ st.maxSize →
    ∃ st2, queuePutAll prioPutCore st items = some st2 ∧ heapInvariant st2.queue ∧
      (↑st2.queue : Multiset Nat) = ↑st.queue + ↑items ∧
      st2.queue.length = st.queue.length + items.length ∧ st2.maxSize = st.maxSize := by
  intro items
  induction items with
  | nil =>
    intro st hheap hcap
    exact ⟨st, rfl, hheap, by simp, by simp, rfl⟩
  | cons x xs ih =>
    intro st hheap hcap
    simp only [List.length_cons] at hcap
    have hlt : ¬ st.maxSize ≤ st.queue.length := by omega
    obtain ⟨hheap2, hms2, hlen2⟩ := prioPutCore_spec st.queue x hheap
    have hstep : queuePut prioPutCore st x =
        .ok ⟨prioPutCore st.queue x, st.maxSize⟩ := by
      unfold queuePut
      rw [if_neg hlt]
    obtain ⟨st2, hrun, hheap3, hms3, hlen3, hmax3⟩ :=
      ih ⟨prioPutCore st.queue x, st.maxSize⟩ hheap2 (by simp only [hlen2]; omega)
    refine ⟨st2, ?_, hheap3, ?_,
      by simp only [hlen3, hlen2, List.length_cons]; omega, hmax3⟩
    · unfold queuePutAll
      rw [hstep]
      exact hrun
    · rw [hms3]
      show (↑(prioPutCore st.queue x) : Multiset Nat) + ↑xs = ↑st.queue + ↑(x :: xs)
      rw [hms2]
      rw [show ((↑(x :: xs) : Multiset Nat) = x ::ₘ ↑xs) from rfl]
      rw [Multiset.cons_add, Multiset.add_cons]

theorem queueDrain_prio : ∀ (fuel : Nat) (st : QueueState), heapInvariant st.queue →
    st.queue.length ≤ fuel →
    (↑(queueDrain prioGetCore fuel st) : Multiset Nat) = ↑st.queue ∧
    List.Sorted (· ≤ ·) (queueDrain prioGetCore fuel st) := by
  intro fuel
  induction fuel with
  | zero =>
    intro st hheap hf
    have hq : st.queue = [] := List.eq_nil_of_length_eq_zero (by omega)
    rw [hq]
    exact ⟨rfl, List.sorted_nil⟩
  | succ fuel ih =>
    intro st hheap hf
    by_cases hemp : st.queue.length = 0
    · rw [queueDrain_of_empty prioGetCore fuel st hemp,
        List.eq_nil_of_length_eq_zero hemp]
      exact ⟨rfl, List.sorted_nil⟩
    · have hne : st.queue ≠ [] := by
        intro h
        rw [h] at hemp
        exact hemp rfl
      obtain ⟨l2, hget, hheap2, hms, hlen⟩ := prioGetCore_spec st.queue hheap hne
      obtain ⟨ihms, ihsorted⟩ := ih ⟨l2, st.maxSize⟩ hheap2 (by simp; omega)
      rw [queueDrain_cons prioGetCore fuel st (st.queue.getD 0 0) ⟨l2, st.maxSize⟩
        (queueGet_of_core prioGetCore st _ l2 hemp hget)]
      constructor
      · rw [← Multiset.cons_coe, ihms, ← hms]
      · rw [List.sorted_cons]
        refine ⟨?_, ihsorted⟩
        intro b hb
        have hbl2 : b ∈ l2 := by
          have h1 : b ∈ (↑(queueDrain prioGetCore fuel ⟨l2, st.maxSize⟩) : Multiset Nat) :=
            Multiset.mem_coe.mpr hb
          rw [ihms] at h1
          exact Multiset.mem_coe.mp h1
        have hbq : b ∈ st.queue := by
          have h2 : b ∈ (↑st.queue : Multiset Nat) := by
            rw [hms]
            exact Multiset.mem_cons_of_mem (Multiset.mem_coe.mpr hbl2)
          exact Multiset.mem_coe.mp h2
        exact heap_root_le_mem st.queue hheap b hbq

theorem queueDrain_fifo : ∀ (fuel : Nat) (q : List Nat) (m : Nat), q.length ≤ fuel →
    queueDrain queueGetCore fuel ⟨q, m⟩ = q := by
  intro fuel
  induction fuel with
  | zero =>
    intro q m hf
    have hq : q = [] := List.eq_nil_of_length_eq_zero (by omega)
    subst hq
    rfl
  | succ fuel ih =>
    intro q m hf
    cases q with
    | nil => rfl
    | cons a t =>
      rw [queueDrain_cons queueGetCore fuel ⟨a :: t, m⟩ a ⟨t, m⟩
        (queueGet_of_core queueGetCore ⟨a :: t, m⟩ a t (by simp) rfl)]
      rw [ih t m (by simp at hf; omega)]

theorem queueDrain_lifo : ∀ (fuel : Nat) (q : List Nat) (m : Nat), q.length ≤ fuel →
    queueDrain lifoGetCore fuel ⟨q, m⟩ = q.reverse := by
  intro fuel
  induction fuel with
  | zero =>
    intro q m hf
    have hq : q = [] := List.eq_nil_of_length_eq_zero (by omega)
    subst hq
    rfl
  | succ fuel ih =>
    intro q m hf
    by_cases hemp : q.length = 0
    · have hq : q = [] := List.eq_nil_of_length_eq_zero hemp
      subst hq
      rfl
    · obtain ⟨t, x, rfl⟩ : ∃ t x, q = t ++ [x] := by
        rcases List.eq_nil_or_concat q with h | ⟨t, x, h⟩
        · rw [h] at hemp; exact absurd rfl hemp
        · exact ⟨t, x, by simpa [List.concat_eq_append] using h⟩
      have hget : lifoGetCore (t ++ [x]) = some (x, t) := by
        unfold lifoGetCore
        rw [List.getLast?_concat, List.dropLast_concat]
      rw [queueDrain_cons lifoGetCore fuel ⟨t ++ [x], m⟩ x ⟨t, m⟩
        (queueGet_of_core lifoGetCore ⟨t ++ [x], m⟩ x t hemp hget)]
      rw [ih t m (by simp at hf; omega)]
      rw [List.reverse_append]
      rfl

theorem c5_queue_ordering (items : List Nat) :
    queueRound queuePutCore queueGetCore items = some items ∧
    queueRound queuePutCore lifoGetCore items = some items.reverse ∧
    (∃ out, queueRound prioPutCore prioGetCore items = some out ∧
      List.Sorted (· ≤ ·) out ∧ out.Perm items) ∧
    queueRound queuePutCore lifoGetCore [1, 2, 3] = some [3, 2, 1] ∧
    queueRound prioPutCore prioGetCore [5, 1, 3] = some [1, 3, 5] := by
  have hput : queuePutAll queuePutCore ⟨[], items.length⟩ items =
      some ⟨items, items.length⟩ := by
    simpa using queuePutAll_fifo items ⟨[], items.length⟩ (by simp)
  refine ⟨?_, ?_, ?_, by decide, by decide⟩
  · unfold queueRound
    rw [hput]
    show some (queueDrain queueGetCore items.length ⟨items, items.length⟩) = some items
    rw [queueDrain_fifo items.length items items.length (le_refl _)]
  · unfold queueRound
    rw [hput]
    show some (queueDrain lifoGetCore items.length ⟨items, items.length⟩) =
      some items.reverse
    rw [queueDrain_lifo items.length items items.length (le_refl _)]
  · obtain ⟨st2, hrun, hheap, hms, hlen, hmax⟩ :=
      queuePutAll_prio items ⟨[], items.length⟩ heapInvariant_nil (by simp)
    obtain ⟨hdms, hdsorted⟩ := queueDrain_prio st2.queue.length st2 hheap (le_refl _)
    refine ⟨queueDrain prioGetCore st2.queue.length st2, ?_, hdsorted, ?_⟩
    · unfold queueRound
      rw [hrun]
    · rw [← Multiset.coe_eq_coe, hdms, hms]
      simp

end VoiceAssistant
